import Mathlib

/-!
Verification development for the `mysql-aes` Go library.

Byte sequences (Go `[]byte`, and Go `string`, which is an immutable byte
sequence) are modelled as `List Nat` whose elements are byte values.
Fallible Go functions returning `(T, error)` are modelled as
`Except AESError T`, with one error constructor per distinct error site in
the source.

The underlying 128-bit block cipher (`crypto/aes` from the Go standard
library, external to this repository) is modelled abstractly as a structure
`AESImpl` of keyed block maps together with the documented properties of a
block cipher: on a 16-byte key and a 16-byte block, encryption produces a
16-byte block of bytes, and decryption inverts encryption.
-/

namespace MysqlAes

/-- Error conditions of the library, one constructor per distinct
`fmt.Errorf` site in the Go source. -/
inductive AESError where
  | emptyPlaintext
  | emptyKey
  | emptyCiphertext
  | invalidLength
  | cipherCreate
  | invalidHex
  | emptyUnpadData
  | invalidPadding
deriving DecidableEq, Repr

/-- The spec's `InvalidInput` error kind: empty plaintext, empty key, empty
ciphertext, or ciphertext length not a multiple of the block size. -/
def IsInvalidInput (e : AESError) : Prop :=
  e = .emptyPlaintext ∨ e = .emptyKey ∨ e = .emptyCiphertext ∨ e = .invalidLength

/-- The spec's `InvalidPadding` error kind: malformed PKCS#7 trailer. -/
def IsInvalidPadding (e : AESError) : Prop :=
  e = .emptyUnpadData ∨ e = .invalidPadding

instance (e : AESError) : Decidable (IsInvalidInput e) := by
  unfold IsInvalidInput; infer_instance

instance (e : AESError) : Decidable (IsInvalidPadding e) := by
  unfold IsInvalidPadding; infer_instance

/-- Equality of `Except` results is decidable (needed to evaluate the
library's fallible operations on concrete inputs). -/
instance {ε α : Type} [DecidableEq ε] [DecidableEq α] : DecidableEq (Except ε α) := fun x y =>
  match x, y with
  | .ok a, .ok b =>
    match decEq a b with
    | .isTrue h => .isTrue (h ▸ rfl)
    | .isFalse h => .isFalse (fun hh => h (Except.noConfusion hh (fun h1 => h1)))
  | .error a, .error b =>
    match decEq a b with
    | .isTrue h => .isTrue (h ▸ rfl)
    | .isFalse h => .isFalse (fun hh => h (Except.noConfusion hh (fun h1 => h1)))
  | .ok _, .error _ => .isFalse (fun hh => Except.noConfusion hh)
  | .error _, .ok _ => .isFalse (fun hh => Except.noConfusion hh)

/-- The XOR wrap-around loop of `aesKey`.  Go's nested loop walks the key
bytes from index 16 onward while `j` cycles `0..15` and restarts at each
outer iteration, so the byte consumed at offset `j` past index 16 is XORed
into buffer position `j % 16`.  Here `j` counts the consumed bytes of
`rest` (the key bytes from index 16 on). -/
def aesKeyLoop : List Nat → List Nat → Nat → List Nat
  | k, [], _ => k
  | k, b :: rest, j =>
      aesKeyLoop (k.set (j % 16) (Nat.xor (k.getD (j % 16) 0) b)) rest (j + 1)

/-- `aesKey` from the source: MySQL-style key processing.  A 16-byte key is
returned unchanged; otherwise a 16-byte zero buffer receives `copy(k, key)`
(the first up-to-16 key bytes) and the remaining key bytes are XOR-folded
in by `aesKeyLoop`. -/
def aesKey (key : List Nat) : List Nat :=
  if key.length = 16 then key
  else aesKeyLoop (key.take 16 ++ List.replicate (16 - key.length) 0) (key.drop 16) 0

/-- Modelled from the Go standard library contract: `aes.NewCipher`
succeeds exactly when the key is 16, 24 or 32 bytes long. -/
def newCipherOK (k : List Nat) : Prop :=
  k.length = 16 ∨ k.length = 24 ∨ k.length = 32

instance (k : List Nat) : Decidable (newCipherOK k) := by
  unfold newCipherOK; infer_instance

/-- `pkcs7Pad` from the source: append `padding` bytes each of value
`padding`, where `padding = blockSize - len(data) % blockSize`. -/
def pkcs7Pad (data : List Nat) (blockSize : Nat) : List Nat :=
  data ++ List.replicate (blockSize - data.length % blockSize)
    (blockSize - data.length % blockSize)

/-- `pkcs7Unpad` from the source: reject empty data; read the last byte as
the pad length; reject a pad length of `0` or one exceeding the data
length; check that the last `padding` bytes all equal `padding`; drop
them. -/
def pkcs7Unpad (data : List Nat) : Except AESError (List Nat) :=
  if data.length = 0 then .error .emptyUnpadData
  else
    let padding := data.getD (data.length - 1) 0
    if padding = 0 ∨ data.length < padding then .error .invalidPadding
    else if (data.drop (data.length - padding)).all (fun b => b == padding) then
      .ok (data.take (data.length - padding))
    else .error .invalidPadding

/-- Fuel-indexed ECB loop: apply `f` to consecutive 16-byte slices of
`data`, as the source's `for i := 0; i < len(data); i += BlockSize` loop
does.  The fuel (instantiated with `data.length`, always sufficient) only
makes the recursion structural. -/
def ecbChunksAux (f : List Nat → List Nat) : Nat → List Nat → List Nat
  | 0, _ => []
  | _, [] => []
  | fuel + 1, b :: rest =>
      f ((b :: rest).take 16) ++ ecbChunksAux f fuel ((b :: rest).drop 16)

/-- ECB-mode block loop of `Encrypt`/`Decrypt`: `f` is the per-block cipher
operation. -/
def ecbMap (f : List Nat → List Nat) (data : List Nat) : List Nat :=
  ecbChunksAux f data.length data

/-- Modelled from the spec: the external 128-bit block cipher
(`crypto/aes`) as an abstract family of keyed block maps.  `enc k b` and
`dec k b` are `cipher.Block.Encrypt`/`Decrypt` on the single block `b`
under the cipher built from key `k`; the fields state the documented
block-cipher behavior on 16-byte keys and blocks. -/
structure AESImpl where
  enc : List Nat → List Nat → List Nat
  dec : List Nat → List Nat → List Nat
  enc_length : ∀ k b, k.length = 16 → b.length = 16 → (enc k b).length = 16
  enc_bytes : ∀ k b, k.length = 16 → b.length = 16 → (∀ x ∈ b, x < 256) →
    ∀ x ∈ enc k b, x < 256
  dec_enc : ∀ k b, k.length = 16 → b.length = 16 → dec k (enc k b) = b

/-- `Encrypt` from the source: validate inputs, process the key, build the
cipher, PKCS#7-pad, encrypt block by block in ECB mode. -/
def Encrypt (A : AESImpl) (plaintext key : List Nat) : Except AESError (List Nat) :=
  if plaintext.length = 0 then .error .emptyPlaintext
  else if key.length = 0 then .error .emptyKey
  else if newCipherOK (aesKey key) then
    .ok (ecbMap (A.enc (aesKey key)) (pkcs7Pad plaintext 16))
  else .error .cipherCreate

/-- `Decrypt` from the source: validate inputs, process the key, build the
cipher, decrypt block by block in ECB mode, strip PKCS#7 padding (a
padding failure is returned to the caller, wrapped; the error condition is
unchanged). -/
def Decrypt (A : AESImpl) (ciphertext key : List Nat) : Except AESError (List Nat) :=
  if ciphertext.length = 0 then .error .emptyCiphertext
  else if key.length = 0 then .error .emptyKey
  else if ciphertext.length % 16 ≠ 0 then .error .invalidLength
  else if newCipherOK (aesKey key) then
    pkcs7Unpad (ecbMap (A.dec (aesKey key)) ciphertext)
  else .error .cipherCreate

/-- One lowercase hex digit, as `encoding/hex` uses
(`0123456789abcdef`): the ASCII code of the digit for `n`. -/
def hexChar (n : Nat) : Nat := if n < 10 then 48 + n else 87 + n

/-- `hex.EncodeToString`: two lowercase hex characters per byte. -/
def hexEncode (bs : List Nat) : List Nat :=
  bs.flatMap (fun b => [hexChar (b / 16), hexChar (b % 16)])

/-- `encoding/hex` digit decoding: accepts `0-9`, `a-f`, `A-F`. -/
def hexDigitVal (c : Nat) : Option Nat :=
  if 48 ≤ c ∧ c ≤ 57 then some (c - 48)
  else if 97 ≤ c ∧ c ≤ 102 then some (c - 87)
  else if 65 ≤ c ∧ c ≤ 70 then some (c - 55)
  else none

/-- `hex.DecodeString`: fails on odd length or any non-hex character. -/
def hexDecode : List Nat → Option (List Nat)
  | [] => some []
  | [_] => none
  | c1 :: c2 :: rest =>
    match hexDigitVal c1, hexDigitVal c2, hexDecode rest with
    | some hi, some lo, some bs => some ((16 * hi + lo) :: bs)
    | _, _, _ => none

/-- `EncryptString` from the source: encrypt, then hex-encode. -/
def EncryptString (A : AESImpl) (plaintext key : List Nat) : Except AESError (List Nat) :=
  match Encrypt A plaintext key with
  | .ok ct => .ok (hexEncode ct)
  | .error e => .error e

/-- `DecryptString` from the source: hex-decode (reporting a hex failure),
then decrypt. -/
def DecryptString (A : AESImpl) (ciphertextHex key : List Nat) : Except AESError (List Nat) :=
  match hexDecode ciphertextHex with
  | none => .error .invalidHex
  | some ct => Decrypt A ct key

/-- Decimal digit expansion (most significant first, ASCII codes), as
`strconv.FormatUint`/`Itoa`/`FormatInt` render magnitudes.  Fuel makes the
division recursion structural; `n + 1` fuel always suffices. -/
def natDecimalAux : Nat → Nat → List Nat
  | 0, _ => []
  | fuel + 1, n => if n < 10 then [48 + n] else natDecimalAux fuel (n / 10) ++ [48 + n % 10]

/-- ASCII decimal rendering of a natural number, no sign. -/
def natDecimal (n : Nat) : List Nat := natDecimalAux (n + 1) n

/-- ASCII decimal rendering of an integer: a leading `-` (ASCII 45) exactly
when negative, as `strconv.Itoa`/`FormatInt` do. -/
def intDecimal (i : Int) : List Nat :=
  if i < 0 then 45 :: natDecimal i.natAbs else natDecimal i.natAbs

/-- The dynamic `userID interface{}` of `DeriveUserKey`: the type cases the
source's `switch` distinguishes.  `other` is the source's `default` branch
and carries the `fmt.Sprintf` generic rendering of the value as data. -/
inductive GoValue where
  | uint : Nat → GoValue
  | uint64 : Nat → GoValue
  | int : Int → GoValue
  | int64 : Int → GoValue
  | str : List Nat → GoValue
  | other : List Nat → GoValue
deriving DecidableEq

/-- The `switch` of `DeriveUserKey`: canonical text of the identity
token. -/
def userIDStr : GoValue → List Nat
  | .uint n => natDecimal n
  | .uint64 n => natDecimal n
  | .int i => intDecimal i
  | .int64 i => intDecimal i
  | .str s => s
  | .other s => s

/-- `UserKeyDeriver` from the source: immutable base configuration. -/
structure UserKeyDeriver where
  baseKey : List Nat
  masterSalt : List Nat
deriving DecidableEq

/-- `DeriveUserKey` from the source:
`baseKey + userIDStr + ":" + masterSalt` (ASCII `:` is 58). -/
def DeriveUserKey (ukd : UserKeyDeriver) (userID : GoValue) : List Nat :=
  ukd.baseKey ++ userIDStr userID ++ [58] ++ ukd.masterSalt

/-- `EncryptForUser` from the source: derive the user key, then
`EncryptString`. -/
def EncryptForUser (A : AESImpl) (ukd : UserKeyDeriver) (plaintext : List Nat)
    (userID : GoValue) : Except AESError (List Nat) :=
  EncryptString A plaintext (DeriveUserKey ukd userID)

/-- `DecryptForUser` from the source: derive the user key, then
`DecryptString`. -/
def DecryptForUser (A : AESImpl) (ukd : UserKeyDeriver) (ciphertextHex : List Nat)
    (userID : GoValue) : Except AESError (List Nat) :=
  DecryptString A ciphertextHex (DeriveUserKey ukd userID)

/-- Modelled from the spec (§4.1 key folding), for the refinement claims:
if the key is exactly 16 bytes return it unchanged; otherwise take a
16-byte zero-filled buffer holding the first up-to-16 key bytes, and for
every remaining input byte at position `i` (starting at index 16) XOR it
into buffer position `i mod 16`. -/
def fold_key (key : List Nat) : List Nat :=
  if key.length = 16 then key
  else
    (List.enumFrom 16 (key.drop 16)).foldl
      (fun buf p => buf.set (p.1 % 16) (Nat.xor (buf.getD (p.1 % 16) 0) p.2))
      ((List.range 16).map (fun j => key.getD j 0))

/-- Modelled from the spec (§4.1 PKCS#7 padding): append `padLen` bytes of
value `padLen`, `padLen = 16 - len(data) mod 16`. -/
def mysql_pad (data : List Nat) : List Nat :=
  data ++ List.replicate (16 - data.length % 16) (16 - data.length % 16)

/-- Modelled from the spec (§4.1 ECB): process the buffer one 16-byte block
at a time, each block independently, indexed by block number. -/
def mysql_ecb (f : List Nat → List Nat) (data : List Nat) : List Nat :=
  (List.range (data.length / 16)).flatMap (fun i => f ((data.drop (16 * i)).take 16))

/-- Modelled from the spec (§6 interop contract with §4.1): the database's
`AES_ENCRYPT` — key folding, PKCS#7 padding, ECB encryption — on inputs
accepted by `Encrypt`. -/
def mysql_aes_encrypt (A : AESImpl) (plaintext key : List Nat) : List Nat :=
  mysql_ecb (A.enc (fold_key key)) (mysql_pad plaintext)

/-- Modelled from the spec (§4.1 PKCS#7 unpadding): fail on empty data;
read the last byte as `padLen`; fail if `padLen = 0` or `padLen >
len(data)`; verify the last `padLen` bytes all equal `padLen`; return
`data` with the trailing `padLen` bytes removed. -/
def mysql_unpad (data : List Nat) : Except AESError (List Nat) :=
  if data = [] then .error .emptyUnpadData
  else
    let padLen := data.getLast?.getD 0
    if padLen = 0 ∨ data.length < padLen then .error .invalidPadding
    else if (data.rtake padLen).all (fun b => b == padLen) then
      .ok (data.rdrop padLen)
    else .error .invalidPadding

/-- Modelled from the spec (§6 interop contract with §4.1): the database's
`AES_DECRYPT` — key folding, ECB decryption, PKCS#7 unpadding — on a
ciphertext of the right shape. -/
def mysql_aes_decrypt (A : AESImpl) (ciphertext key : List Nat) : Except AESError (List Nat) :=
  mysql_unpad (mysql_ecb (A.dec (fold_key key)) ciphertext)

/-- A concrete inhabitant of the abstract cipher interface (the identity
permutation on each block), used to instantiate universally quantified
statements at concrete inputs. -/
def idAES : AESImpl where
  enc := fun _ b => b
  dec := fun _ b => b
  enc_length := fun _ _ _ hb => hb
  enc_bytes := fun _ _ _ _ hb => hb
  dec_enc := fun _ _ _ _ => rfl

/-! ### Helper lemmas: key folding -/

theorem aesKeyLoop_length (rest : List Nat) : ∀ (k : List Nat) (j : Nat),
    (aesKeyLoop k rest j).length = k.length := by
  induction rest with
  | nil => intro k j; rfl
  | cons b bs ih =>
    intro k j
    simp only [aesKeyLoop]
    rw [ih]
    simp

theorem aesKey_length (key : List Nat) : (aesKey key).length = 16 := by
  unfold aesKey
  split
  · assumption
  · rw [aesKeyLoop_length]
    simp [List.length_take]
    omega

theorem newCipherOK_aesKey (key : List Nat) : newCipherOK (aesKey key) :=
  Or.inl (aesKey_length key)

/-! ### Helper lemmas: PKCS#7 padding -/

theorem pkcs7Pad_length (data : List Nat) :
    (pkcs7Pad data 16).length = data.length + (16 - data.length % 16) := by
  simp [pkcs7Pad]

theorem pkcs7Pad_length_mod (data : List Nat) : (pkcs7Pad data 16).length % 16 = 0 := by
  rw [pkcs7Pad_length]
  omega

theorem pkcs7Pad_length_pos (data : List Nat) : 0 < (pkcs7Pad data 16).length := by
  rw [pkcs7Pad_length]
  omega

/-- General success condition for `pkcs7Unpad`: when the last byte is `n`
with `1 ≤ n ≤ len(data)` and the last `n` bytes all equal `n`, unpadding
strips exactly `n` bytes (no bound of `n` by the block size is checked). -/
theorem pkcs7Unpad_ok (data : List Nat) (n : Nat) (hne : data.length ≠ 0)
    (hlast : data.getD (data.length - 1) 0 = n) (h1 : 1 ≤ n) (hlen : n ≤ data.length)
    (hall : ∀ x ∈ data.drop (data.length - n), x = n) :
    pkcs7Unpad data = .ok (data.take (data.length - n)) := by
  unfold pkcs7Unpad
  rw [if_neg hne]
  simp only [hlast]
  rw [if_neg (by omega)]
  rw [if_pos]
  simp only [List.all_eq_true, beq_iff_eq]
  exact hall

theorem pkcs7Unpad_pkcs7Pad (data : List Nat) :
    pkcs7Unpad (pkcs7Pad data 16) = .ok data := by
  have hmod : data.length % 16 < 16 := Nat.mod_lt _ (by omega)
  have hlen : (pkcs7Pad data 16).length = data.length + (16 - data.length % 16) :=
    pkcs7Pad_length data
  have htake : (pkcs7Pad data 16).take (data.length) = data := by
    unfold pkcs7Pad
    exact List.take_left data _
  have hdrop : (pkcs7Pad data 16).drop (data.length) =
      List.replicate (16 - data.length % 16) (16 - data.length % 16) := by
    unfold pkcs7Pad
    exact List.drop_left data _
  have hsub : (pkcs7Pad data 16).length - (16 - data.length % 16) = data.length := by omega
  have := pkcs7Unpad_ok (pkcs7Pad data 16) (16 - data.length % 16)
    (by omega)
    (by
      rw [List.getD_eq_getElem?_getD]
      unfold pkcs7Pad
      rw [List.getElem?_append_right (by simp [pkcs7Pad] at hlen ⊢; omega),
        List.getElem?_replicate]
      simp only [List.length_append, List.length_replicate]
      rw [if_pos (by omega)]
      rfl)
    (by omega)
    (by omega)
    (by
      rw [hsub, hdrop]
      intro x hx
      exact (List.eq_of_mem_replicate hx))
  rw [this, hsub, htake]

/-! ### Helper lemmas: ECB block loop -/

theorem ecbChunksAux_nil (f : List Nat → List Nat) (fuel : Nat) :
    ecbChunksAux f fuel [] = [] := by
  cases fuel <;> rfl

theorem ecbChunksAux_succ (f : List Nat → List Nat) (fuel : Nat) (data : List Nat)
    (h : data ≠ []) :
    ecbChunksAux f (fuel + 1) data = f (data.take 16) ++ ecbChunksAux f fuel (data.drop 16) := by
  cases data with
  | nil => exact absurd rfl h
  | cons b t => rfl

theorem ecbChunksAux_eq_ecbMap (f : List Nat → List Nat) :
    ∀ (fuel : Nat) (data : List Nat), data.length ≤ fuel →
      ecbChunksAux f fuel data = ecbMap f data := by
  intro fuel
  induction fuel using Nat.strong_induction_on with
  | _ fuel ih =>
    intro data hle
    cases data with
    | nil => rw [ecbChunksAux_nil]; rfl
    | cons b t =>
      cases fuel with
      | zero => simp at hle
      | succ m =>
        rw [ecbChunksAux_succ f m _ (by simp)]
        show _ = ecbChunksAux f (b :: t).length (b :: t)
        rw [List.length_cons, ecbChunksAux_succ f t.length _ (by simp)]
        have hd : ((b :: t).drop 16).length ≤ m := by
          simp [List.length_drop] at hle ⊢
          omega
        rw [ih m (by omega) _ hd]
        have hlt : t.length < m + 1 := by
          simp only [List.length_cons] at hle
          omega
        rw [ih t.length hlt _ (by simp [List.length_drop])]

theorem ecbMap_nil (f : List Nat → List Nat) : ecbMap f [] = [] := rfl

theorem ecbMap_append (f : List Nat → List Nat) (c rest : List Nat) (hc : c.length = 16) :
    ecbMap f (c ++ rest) = f c ++ ecbMap f rest := by
  have hlen : (c ++ rest).length = (rest.length + 15) + 1 := by
    simp [hc]
    omega
  unfold ecbMap
  rw [hlen, ecbChunksAux_succ f _ _ (by intro hh; rw [hh] at hlen; simp at hlen),
    List.take_left' hc, List.drop_left' hc,
    ecbChunksAux_eq_ecbMap f _ _ (by omega)]
  rfl

theorem ecbMap_length (f : List Nat → List Nat)
    (hf : ∀ b : List Nat, b.length = 16 → (f b).length = 16) :
    ∀ (n : Nat) (data : List Nat), data.length = n → n % 16 = 0 →
      (ecbMap f data).length = data.length := by
  intro n
  induction n using Nat.strong_induction_on with
  | _ n ih =>
    intro data hlen hmod
    cases data with
    | nil => rfl
    | cons b t =>
      have hlen' : t.length + 1 = n := by simpa using hlen
      have htake : ((b :: t).take 16).length = 16 := by
        simp only [List.length_take, List.length_cons]
        omega
      have hdl : ((b :: t).drop 16).length = n - 16 := by
        simp only [List.length_drop, List.length_cons]
        omega
      conv_lhs => rw [← List.take_append_drop 16 (b :: t)]
      rw [ecbMap_append f _ _ htake, List.length_append, hf _ htake,
        ih (n - 16) (by omega) _ hdl (by omega), hdl]
      simp only [List.length_cons]
      omega

theorem ecbMap_ecbMap (f g : List Nat → List Nat)
    (hf : ∀ b : List Nat, b.length = 16 → (f b).length = 16)
    (hgf : ∀ b : List Nat, b.length = 16 → g (f b) = b) :
    ∀ (n : Nat) (data : List Nat), data.length = n → n % 16 = 0 →
      ecbMap g (ecbMap f data) = data := by
  intro n
  induction n using Nat.strong_induction_on with
  | _ n ih =>
    intro data hlen hmod
    cases data with
    | nil => rfl
    | cons b t =>
      have hlen' : t.length + 1 = n := by simpa using hlen
      have htake : ((b :: t).take 16).length = 16 := by
        simp only [List.length_take, List.length_cons]
        omega
      have hdl : ((b :: t).drop 16).length = n - 16 := by
        simp only [List.length_drop, List.length_cons]
        omega
      conv_lhs => rw [← List.take_append_drop 16 (b :: t)]
      rw [ecbMap_append f _ _ htake, ecbMap_append g _ _ (hf _ htake),
        hgf _ htake, ih (n - 16) (by omega) _ hdl (by omega)]
      exact List.take_append_drop 16 (b :: t)

theorem ecbMap_bytes (f : List Nat → List Nat)
    (hf : ∀ b : List Nat, b.length = 16 → (∀ x ∈ b, x < 256) → ∀ x ∈ f b, x < 256) :
    ∀ (n : Nat) (data : List Nat), data.length = n → n % 16 = 0 →
      (∀ x ∈ data, x < 256) → ∀ x ∈ ecbMap f data, x < 256 := by
  intro n
  induction n using Nat.strong_induction_on with
  | _ n ih =>
    intro data hlen hmod hdata x hx
    cases data with
    | nil => simp [ecbMap_nil] at hx
    | cons b t =>
      have hlen' : t.length + 1 = n := by simpa using hlen
      have htake : ((b :: t).take 16).length = 16 := by
        simp only [List.length_take, List.length_cons]
        omega
      have hdl : ((b :: t).drop 16).length = n - 16 := by
        simp only [List.length_drop, List.length_cons]
        omega
      rw [← List.take_append_drop 16 (b :: t), ecbMap_append f _ _ htake,
        List.mem_append] at hx
      cases hx with
      | inl h =>
        exact hf _ htake (fun y hy => hdata y (List.mem_of_mem_take hy)) x h
      | inr h =>
        exact ih (n - 16) (by omega) _ hdl (by omega)
          (fun y hy => hdata y (List.mem_of_mem_drop hy)) x h

/-! ### Helper lemmas: hex encoding -/

theorem hexDigitVal_hexChar (n : Nat) (h : n < 16) : hexDigitVal (hexChar n) = some n := by
  unfold hexChar hexDigitVal
  rcases Nat.lt_or_ge n 10 with h10 | h10
  · rw [if_pos h10, if_pos (by omega)]
    congr 1
    omega
  · rw [if_neg (show ¬ n < 10 from by omega)]
    rw [if_neg (by omega), if_pos (by omega)]
    congr 1
    omega

theorem hexEncode_cons (b : Nat) (rest : List Nat) :
    hexEncode (b :: rest) = hexChar (b / 16) :: hexChar (b % 16) :: hexEncode rest := rfl

theorem hexDecode_cons_cons (c1 c2 : Nat) (rest : List Nat) :
    hexDecode (c1 :: c2 :: rest) =
      match hexDigitVal c1, hexDigitVal c2, hexDecode rest with
      | some hi, some lo, some bs => some ((16 * hi + lo) :: bs)
      | _, _, _ => none := rfl

theorem hexDecode_hexEncode (bs : List Nat) (h : ∀ x ∈ bs, x < 256) :
    hexDecode (hexEncode bs) = some bs := by
  induction bs with
  | nil => rfl
  | cons b rest ih =>
    have hb : b < 256 := h b (by simp)
    rw [hexEncode_cons]
    show hexDecode (hexChar (b / 16) :: hexChar (b % 16) :: hexEncode rest) = _
    unfold hexDecode
    rw [hexDigitVal_hexChar (b / 16) (by omega), hexDigitVal_hexChar (b % 16) (by omega),
      ih (fun x hx => h x (by simp [hx]))]
    simp
    omega

theorem hexDecode_odd (h : List Nat) (hodd : h.length % 2 = 1) : hexDecode h = none := by
  induction h using hexDecode.induct with
  | case1 => simp at hodd
  | case2 c => rfl
  | case3 c1 c2 rest hi lo bs hrest hlo hhi ih =>
    exfalso
    simp only [List.length_cons] at hodd
    rw [ih (by omega)] at hrest
    exact Option.noConfusion hrest
  | case4 c1 c2 rest hmatch ih =>
    rcases h1 : hexDigitVal c1 with _ | v1 <;> rcases h2 : hexDigitVal c2 with _ | v2 <;>
      rcases h3 : hexDecode rest with _ | bs <;>
      rw [hexDecode_cons_cons, h1, h2, h3]
    exact absurd (hmatch v1 v2 bs h1 h2 h3) (fun hc => hc)

theorem hexDecode_badChar (h : List Nat) (c : Nat) (hc : c ∈ h)
    (hbad : hexDigitVal c = none) : hexDecode h = none := by
  induction h using hexDecode.induct with
  | case1 => simp at hc
  | case2 c1 =>
    rfl
  | case3 c1 c2 rest hi lo bs hrest hlo hhi ih =>
    exfalso
    simp only [List.mem_cons] at hc
    rcases hc with rfl | rfl | hmem
    · rw [hhi] at hbad; exact Option.noConfusion hbad
    · rw [hlo] at hbad; exact Option.noConfusion hbad
    · rw [ih hmem] at hrest; exact Option.noConfusion hrest
  | case4 c1 c2 rest hmatch ih =>
    rcases h1 : hexDigitVal c1 with _ | v1 <;> rcases h2 : hexDigitVal c2 with _ | v2 <;>
      rcases h3 : hexDecode rest with _ | bs <;>
      rw [hexDecode_cons_cons, h1, h2, h3]
    exact absurd (hmatch v1 v2 bs h1 h2 h3) (fun hh => hh)

/-! ### Helper lemmas: decimal rendering -/

theorem natDecimalAux_digits (fuel : Nat) : ∀ (n : Nat), ∀ d ∈ natDecimalAux fuel n,
    48 ≤ d ∧ d ≤ 57 := by
  induction fuel with
  | zero => intro n d hd; simp [natDecimalAux] at hd
  | succ m ih =>
    intro n d hd
    unfold natDecimalAux at hd
    split at hd
    · simp at hd
      omega
    · rw [List.mem_append] at hd
      rcases hd with hd | hd
      · exact ih _ d hd
      · simp at hd
        have : n % 10 < 10 := Nat.mod_lt _ (by omega)
        omega

theorem natDecimal_digits (n : Nat) : ∀ d ∈ natDecimal n, 48 ≤ d ∧ d ≤ 57 :=
  natDecimalAux_digits (n + 1) n

/-! ### Helper lemmas: the spec-worded key folding agrees with `aesKey` -/

theorem aesKeyLoop_eq_foldl (rest : List Nat) : ∀ (k : List Nat) (j : Nat),
    (List.enumFrom (16 + j) rest).foldl
      (fun buf p => buf.set (p.1 % 16) (Nat.xor (buf.getD (p.1 % 16) 0) p.2)) k
      = aesKeyLoop k rest j := by
  induction rest with
  | nil => intro k j; rfl
  | cons b bs ih =>
    intro k j
    rw [List.enumFrom_cons, List.foldl_cons]
    show (List.enumFrom (16 + (j + 1)) bs).foldl _ _ = _
    rw [ih _ (j + 1)]
    simp only [aesKeyLoop, Nat.add_mod_left]

theorem copy_buffer_length (key : List Nat) :
    (key.take 16 ++ List.replicate (16 - key.length) 0).length = 16 := by
  simp [List.length_take]
  omega

theorem copy_buffer_eq (key : List Nat) :
    key.take 16 ++ List.replicate (16 - key.length) 0
      = (List.range 16).map (fun j => key.getD j 0) := by
  apply List.ext_getElem?
  intro n
  by_cases h16 : n < 16
  · rw [List.getElem?_map]
    rw [List.getElem?_range h16]
    by_cases hn : n < key.length
    · rw [List.getElem?_append, if_pos (by simp [List.length_take]; omega),
        List.getElem?_take_of_lt h16, List.getElem?_eq_getElem hn]
      simp [List.getD_eq_getElem?_getD, List.getElem?_eq_getElem hn]
    · rw [List.getElem?_append_right (by simp [List.length_take]; omega),
        List.getElem?_replicate, if_pos (by simp [List.length_take]; omega)]
      simp [List.getD_eq_getElem?_getD, List.getElem?_eq_none (by omega : key.length ≤ n)]
  · rw [List.getElem?_eq_none (by rw [copy_buffer_length]; omega),
      List.getElem?_eq_none (by simp; omega)]

theorem aesKey_eq_fold_key (key : List Nat) : aesKey key = fold_key key := by
  unfold aesKey fold_key
  split
  · rfl
  · rw [← copy_buffer_eq]
    have := aesKeyLoop_eq_foldl (key.drop 16)
      (key.take 16 ++ List.replicate (16 - key.length) 0) 0
    simpa using this.symm

/-! ### Helper lemmas: the spec-worded ECB loop agrees with `ecbMap` -/

theorem ecbMap_eq_mysql_ecb (f : List Nat → List Nat) :
    ∀ (n : Nat) (data : List Nat), data.length = n → n % 16 = 0 →
      ecbMap f data = mysql_ecb f data := by
  intro n
  induction n using Nat.strong_induction_on with
  | _ n ih =>
    intro data hlen hmod
    cases data with
    | nil => rfl
    | cons b t =>
      have hlen' : t.length + 1 = n := by simpa using hlen
      have htake : ((b :: t).take 16).length = 16 := by
        simp only [List.length_take, List.length_cons]
        omega
      have hdl : ((b :: t).drop 16).length = n - 16 := by
        simp only [List.length_drop, List.length_cons]
        omega
      conv_lhs => rw [← List.take_append_drop 16 (b :: t)]
      rw [ecbMap_append f _ _ htake, ih (n - 16) (by omega) _ hdl (by omega)]
      unfold mysql_ecb
      rw [hdl, hlen]
      have hquot : n / 16 = (n - 16) / 16 + 1 := by omega
      rw [hquot, List.range_succ_eq_map, List.flatMap_cons, List.flatMap_map]
      have harg : (fun a => f (List.take 16 (List.drop (16 * Nat.succ a) (b :: t))))
          = fun i => f (List.take 16 (List.drop (16 * i) (List.drop 16 (b :: t)))) := by
        funext i
        have h1 : 16 * Nat.succ i = 16 + 16 * i := by omega
        rw [h1, ← List.drop_drop]
      rw [harg, Nat.mul_zero, List.drop_zero]

/-! ### Helper lemmas: the spec-worded unpadding agrees with `pkcs7Unpad` -/

theorem getLast?_getD (l : List Nat) : l.getLast?.getD 0 = l.getD (l.length - 1) 0 := by
  rw [List.getLast?_eq_getElem?, List.getD_eq_getElem?_getD]

theorem pkcs7Unpad_eq_mysql_unpad (data : List Nat) : pkcs7Unpad data = mysql_unpad data := by
  unfold pkcs7Unpad mysql_unpad
  rw [getLast?_getD]
  simp only [List.rtake, List.rdrop, List.length_eq_zero]

/-! ### Helper lemmas: branch characterization of `Encrypt` and `Decrypt` -/

theorem Encrypt_eq (A : AESImpl) (p k : List Nat) (hp : p ≠ []) (hk : k ≠ []) :
    Encrypt A p k = .ok (ecbMap (A.enc (aesKey k)) (pkcs7Pad p 16)) := by
  unfold Encrypt
  rw [if_neg (by simpa [List.length_eq_zero] using hp),
    if_neg (by simpa [List.length_eq_zero] using hk),
    if_pos (newCipherOK_aesKey k)]

theorem Decrypt_eq (A : AESImpl) (c k : List Nat) (hc : c ≠ []) (hk : k ≠ [])
    (hmod : c.length % 16 = 0) :
    Decrypt A c k = pkcs7Unpad (ecbMap (A.dec (aesKey k)) c) := by
  unfold Decrypt
  rw [if_neg (by simpa [List.length_eq_zero] using hc),
    if_neg (by simpa [List.length_eq_zero] using hk),
    if_neg (by omega),
    if_pos (newCipherOK_aesKey k)]

/-! ### Helper lemmas: user key derivation -/

theorem DeriveUserKey_ne_nil (ukd : UserKeyDeriver) (v : GoValue) :
    DeriveUserKey ukd v ≠ [] := by
  unfold DeriveUserKey
  simp

/-- Bytes of a PKCS#7-padded buffer stay below 256 when the data bytes do
(the pad value is at most 16). -/
theorem pkcs7Pad_bytes (data : List Nat) (h : ∀ x ∈ data, x < 256) :
    ∀ x ∈ pkcs7Pad data 16, x < 256 := by
  intro x hx
  unfold pkcs7Pad at hx
  rw [List.mem_append] at hx
  rcases hx with hx | hx
  · exact h x hx
  · have := List.eq_of_mem_replicate hx
    omega

/-- `pkcs7Unpad` only ever reports a padding-kind error. -/
theorem pkcs7Unpad_error (d : List Nat) (e : AESError) (h : pkcs7Unpad d = .error e) :
    IsInvalidPadding e := by
  unfold pkcs7Unpad at h
  split at h
  · cases h
    exact Or.inl rfl
  · dsimp only at h
    split at h
    · cases h
      exact Or.inr rfl
    · split at h
      · exact Except.noConfusion h
      · cases h
        exact Or.inr rfl

/-- Distinct error payloads give distinct `Except.error` results. -/
theorem except_error_ne {α : Type} {e1 e2 : AESError} (h : e1 ≠ e2) :
    (Except.error e1 : Except AESError α) ≠ Except.error e2 := by
  intro hh
  cases hh
  exact h rfl

/-- An `Except.ok` result is never an `Except.error` result. -/
theorem except_ok_ne_error {α : Type} (a : α) (e : AESError) :
    (Except.ok a : Except AESError α) ≠ Except.error e := fun hh => Except.noConfusion hh

/-! ## Claim theorems -/

/-- C1: for every non-empty plaintext byte sequence `p` and every non-empty
key byte sequence `k`, `Decrypt (Encrypt p k) k` succeeds and returns
exactly `p`. -/
theorem c1_encrypt_decrypt_roundtrip (A : AESImpl) (p k : List Nat)
    (hp : p ≠ []) (hk : k ≠ []) :
    ∃ ct, Encrypt A p k = .ok ct ∧ Decrypt A ct k = .ok p := by
  have hkey : (aesKey k).length = 16 := aesKey_length k
  have hencl : ∀ b : List Nat, b.length = 16 → (A.enc (aesKey k) b).length = 16 :=
    fun b hb => A.enc_length _ b hkey hb
  have hpadmod : (pkcs7Pad p 16).length % 16 = 0 := pkcs7Pad_length_mod p
  refine ⟨ecbMap (A.enc (aesKey k)) (pkcs7Pad p 16), Encrypt_eq A p k hp hk, ?_⟩
  have hctlen : (ecbMap (A.enc (aesKey k)) (pkcs7Pad p 16)).length = (pkcs7Pad p 16).length :=
    ecbMap_length _ hencl _ _ rfl hpadmod
  have hctne : ecbMap (A.enc (aesKey k)) (pkcs7Pad p 16) ≠ [] := by
    intro hh
    rw [hh] at hctlen
    have := pkcs7Pad_length_pos p
    simp at hctlen
    omega
  rw [Decrypt_eq A _ k hctne hk (by rw [hctlen]; exact hpadmod)]
  rw [ecbMap_ecbMap (A.enc (aesKey k)) (A.dec (aesKey k)) hencl
    (fun b hb => A.dec_enc _ b hkey hb) _ _ rfl hpadmod]
  exact pkcs7Unpad_pkcs7Pad p

/-- Witness for C1 at a concrete plaintext, key and cipher instance. -/
theorem c1_encrypt_decrypt_roundtrip_witness :
    ∃ ct, Encrypt idAES [104] [107] = .ok ct ∧ Decrypt idAES ct [107] = .ok [104] :=
  c1_encrypt_decrypt_roundtrip idAES [104] [107] (by decide) (by decide)

/-- C4: key folding returns a 16-byte key unchanged, otherwise XOR-folds
the tail of the key into a 16-byte buffer holding the first up-to-16 bytes
(each remaining byte at position `i ≥ 16` lands at `i mod 16`, as the
spec-worded `fold_key` states), and the processed key is always exactly 16
bytes. -/
theorem c4_aesKey_folding (key : List Nat) :
    (key.length = 16 → aesKey key = key) ∧
    aesKey key = fold_key key ∧
    (aesKey key).length = 16 := by
  refine ⟨fun h => ?_, aesKey_eq_fold_key key, aesKey_length key⟩
  unfold aesKey
  rw [if_pos h]

/-- Witness for C4 at concrete 16-byte and non-16-byte keys. -/
theorem c4_aesKey_folding_witness :
    aesKey (List.replicate 16 3) = List.replicate 16 3 ∧
    (aesKey [1, 2]).length = 16 :=
  ⟨(c4_aesKey_folding (List.replicate 16 3)).1 (by decide),
   (c4_aesKey_folding [1, 2]).2.2⟩

/-- C5: `Encrypt` succeeds on non-empty plaintext and key, and the
ciphertext length is the plaintext length rounded up to the next multiple
of 16 with at least one padding byte (a full extra block when the length
is already a multiple of 16); the ciphertext length is a positive multiple
of 16. -/
theorem c5_encrypt_length (A : AESImpl) (p k : List Nat) (hp : p ≠ []) (hk : k ≠ []) :
    ∃ ct, Encrypt A p k = .ok ct ∧
      ct.length = p.length + (16 - p.length % 16) ∧
      1 ≤ 16 - p.length % 16 ∧
      ct.length % 16 = 0 ∧
      0 < ct.length ∧
      (p.length % 16 = 0 → ct.length = p.length + 16) := by
  have hkey : (aesKey k).length = 16 := aesKey_length k
  have hencl : ∀ b : List Nat, b.length = 16 → (A.enc (aesKey k) b).length = 16 :=
    fun b hb => A.enc_length _ b hkey hb
  refine ⟨ecbMap (A.enc (aesKey k)) (pkcs7Pad p 16), Encrypt_eq A p k hp hk, ?_⟩
  have hctlen : (ecbMap (A.enc (aesKey k)) (pkcs7Pad p 16)).length = (pkcs7Pad p 16).length :=
    ecbMap_length _ hencl _ _ rfl (pkcs7Pad_length_mod p)
  rw [hctlen, pkcs7Pad_length]
  refine ⟨rfl, by omega, by omega, by omega, fun h => by omega⟩

/-- Witness for C5 at a concrete plaintext and key. -/
theorem c5_encrypt_length_witness :
    ∃ ct, Encrypt idAES [1, 2, 3] [9] = .ok ct ∧
      ct.length = 3 + (16 - 3 % 16) ∧
      1 ≤ 16 - (3 : Nat) % 16 ∧
      ct.length % 16 = 0 ∧
      0 < ct.length ∧
      ((3 : Nat) % 16 = 0 → ct.length = 3 + 16) :=
  c5_encrypt_length idAES [1, 2, 3] [9] (by decide) (by decide)

/-- C6: padding appends `padLen` bytes of value `padLen` with
`1 ≤ padLen ≤ 16`, and unpadding a padded buffer recovers the original
data, for every byte sequence including the empty one and exact multiples
of 16. -/
theorem c6_pad_unpad_roundtrip (data : List Nat) :
    (pkcs7Pad data 16).length = data.length + (16 - data.length % 16) ∧
    1 ≤ 16 - data.length % 16 ∧
    16 - data.length % 16 ≤ 16 ∧
    pkcs7Pad data 16 = data ++ List.replicate (16 - data.length % 16) (16 - data.length % 16) ∧
    pkcs7Unpad (pkcs7Pad data 16) = .ok data ∧
    pkcs7Unpad (pkcs7Pad [] 16) = .ok [] :=
  ⟨pkcs7Pad_length data, by omega, by omega, rfl,
   pkcs7Unpad_pkcs7Pad data, pkcs7Unpad_pkcs7Pad []⟩

/-- Witness for C6 at a concrete byte sequence. -/
theorem c6_pad_unpad_roundtrip_witness :
    pkcs7Unpad (pkcs7Pad [7] 16) = .ok [7] :=
  (c6_pad_unpad_roundtrip [7]).2.2.2.2.1

/-- C7: `Encrypt` rejects empty plaintext and empty key with an
`InvalidInput`-kind error; `Decrypt` rejects empty ciphertext, empty key,
and ciphertext lengths not a multiple of 16 with an `InvalidInput`-kind
error; `DecryptString` rejects non-hex input (odd length or a non-hex
character) with the `InvalidEncoding`-kind error. -/
theorem c7_error_handling :
    (∀ (A : AESImpl) (k : List Nat), ∃ e, Encrypt A [] k = .error e ∧ IsInvalidInput e) ∧
    (∀ (A : AESImpl) (p : List Nat), ∃ e, Encrypt A p [] = .error e ∧ IsInvalidInput e) ∧
    (∀ (A : AESImpl) (k : List Nat), ∃ e, Decrypt A [] k = .error e ∧ IsInvalidInput e) ∧
    (∀ (A : AESImpl) (c : List Nat), ∃ e, Decrypt A c [] = .error e ∧ IsInvalidInput e) ∧
    (∀ (A : AESImpl) (c k : List Nat), c.length % 16 ≠ 0 →
      ∃ e, Decrypt A c k = .error e ∧ IsInvalidInput e) ∧
    (∀ (A : AESImpl) (h k : List Nat),
      (h.length % 2 = 1 ∨ ∃ c ∈ h, hexDigitVal c = none) →
      DecryptString A h k = .error .invalidHex) := by
  refine ⟨?_, ?_, ?_, ?_, ?_, ?_⟩
  · intro A k
    exact ⟨.emptyPlaintext, rfl, Or.inl rfl⟩
  · intro A p
    by_cases hp : p.length = 0
    · refine ⟨.emptyPlaintext, ?_, Or.inl rfl⟩
      unfold Encrypt
      rw [if_pos hp]
    · refine ⟨.emptyKey, ?_, Or.inr (Or.inl rfl)⟩
      unfold Encrypt
      rw [if_neg hp, if_pos (show ([] : List Nat).length = 0 from rfl)]
  · intro A k
    exact ⟨.emptyCiphertext, rfl, Or.inr (Or.inr (Or.inl rfl))⟩
  · intro A c
    by_cases hc : c.length = 0
    · refine ⟨.emptyCiphertext, ?_, Or.inr (Or.inr (Or.inl rfl))⟩
      unfold Decrypt
      rw [if_pos hc]
    · refine ⟨.emptyKey, ?_, Or.inr (Or.inl rfl)⟩
      unfold Decrypt
      rw [if_neg hc, if_pos (show ([] : List Nat).length = 0 from rfl)]
  · intro A c k hmod
    have hc : ¬ c.length = 0 := by omega
    by_cases hk : k.length = 0
    · refine ⟨.emptyKey, ?_, Or.inr (Or.inl rfl)⟩
      unfold Decrypt
      rw [if_neg hc, if_pos hk]
    · refine ⟨.invalidLength, ?_, Or.inr (Or.inr (Or.inr rfl))⟩
      unfold Decrypt
      rw [if_neg hc, if_neg hk, if_pos hmod]
  · intro A h k hbad
    have hnone : hexDecode h = none := by
      rcases hbad with hodd | ⟨c, hc, hcbad⟩
      · exact hexDecode_odd h hodd
      · exact hexDecode_badChar h c hc hcbad
    unfold DecryptString
    rw [hnone]

/-- Witness for C7 at concrete rejected inputs. -/
theorem c7_error_handling_witness :
    (∃ e, Decrypt idAES [1] [2] = .error e ∧ IsInvalidInput e) ∧
    DecryptString idAES [103] [2] = .error .invalidHex :=
  ⟨c7_error_handling.2.2.2.2.1 idAES [1] [2] (by decide),
   c7_error_handling.2.2.2.2.2 idAES [103] [2] (Or.inl (by decide))⟩

/-- C8: `DeriveUserKey` returns exactly
`baseKey ++ identityText ++ ":" ++ masterSalt`, where unsigned integers
render as plain decimal digits with no sign, signed integers carry a
leading `-` only when negative, strings pass through unchanged, the
default case uses the generic textual rendering, and the concrete instance
with base `"BASE"`, salt `"SALT"` and unsigned identity `42` yields
`"BASE42:SALT"`. -/
theorem c8_derive_user_key :
    (∀ (ukd : UserKeyDeriver) (v : GoValue),
      DeriveUserKey ukd v = ukd.baseKey ++ userIDStr v ++ [58] ++ ukd.masterSalt) ∧
    (∀ n : Nat, userIDStr (.uint n) = natDecimal n ∧ userIDStr (.uint64 n) = natDecimal n) ∧
    (∀ (n : Nat), ∀ d ∈ natDecimal n, 48 ≤ d ∧ d ≤ 57) ∧
    (∀ i : Int,
      userIDStr (.int i) = (if i < 0 then 45 :: natDecimal i.natAbs else natDecimal i.natAbs) ∧
      userIDStr (.int64 i) =
        (if i < 0 then 45 :: natDecimal i.natAbs else natDecimal i.natAbs)) ∧
    (∀ s : List Nat, userIDStr (.str s) = s ∧ userIDStr (.other s) = s) ∧
    DeriveUserKey ⟨[66, 65, 83, 69], [83, 65, 76, 84]⟩ (.uint 42) =
      [66, 65, 83, 69, 52, 50, 58, 83, 65, 76, 84] :=
  ⟨fun _ _ => rfl, fun _ => ⟨rfl, rfl⟩, natDecimal_digits,
   fun _ => ⟨rfl, rfl⟩, fun _ => ⟨rfl, rfl⟩, by decide⟩

/-- Witness for C8 at a concrete deriver, identity and digit. -/
theorem c8_derive_user_key_witness :
    DeriveUserKey ⟨[66], [84]⟩ (.uint 7) = [66] ++ userIDStr (.uint 7) ++ [58] ++ [84] ∧
    (48 ≤ 50 ∧ 50 ≤ 57) :=
  ⟨c8_derive_user_key.1 ⟨[66], [84]⟩ (.uint 7),
   c8_derive_user_key.2.2.1 42 50 (by decide)⟩

/-- C9: the derived user key is never empty, its folded form is always
exactly 16 bytes, so the empty-key and cipher-construction failure
branches are unreachable through the user-level operations, and
`EncryptForUser` succeeds on every non-empty plaintext. -/
theorem c9_user_operations_total :
    (∀ (ukd : UserKeyDeriver) (v : GoValue), DeriveUserKey ukd v ≠ [] ∧
      (aesKey (DeriveUserKey ukd v)).length = 16) ∧
    (∀ (A : AESImpl) (ukd : UserKeyDeriver) (v : GoValue) (p : List Nat), p ≠ [] →
      ∃ hexCt, EncryptForUser A ukd p v = .ok hexCt) ∧
    (∀ (A : AESImpl) (ukd : UserKeyDeriver) (v : GoValue) (p : List Nat),
      EncryptForUser A ukd p v ≠ .error .emptyKey ∧
      EncryptForUser A ukd p v ≠ .error .cipherCreate) ∧
    (∀ (A : AESImpl) (ukd : UserKeyDeriver) (v : GoValue) (h : List Nat),
      DecryptForUser A ukd h v ≠ .error .emptyKey ∧
      DecryptForUser A ukd h v ≠ .error .cipherCreate) := by
  have hmain : ∀ (A : AESImpl) (ukd : UserKeyDeriver) (v : GoValue) (p : List Nat), p ≠ [] →
      EncryptForUser A ukd p v =
        .ok (hexEncode (ecbMap (A.enc (aesKey (DeriveUserKey ukd v))) (pkcs7Pad p 16))) := by
    intro A ukd v p hp
    unfold EncryptForUser EncryptString
    rw [Encrypt_eq A p _ hp (DeriveUserKey_ne_nil ukd v)]
  refine ⟨fun ukd v => ⟨DeriveUserKey_ne_nil ukd v, aesKey_length _⟩, ?_, ?_, ?_⟩
  · intro A ukd v p hp
    exact ⟨_, hmain A ukd v p hp⟩
  · intro A ukd v p
    by_cases hp : p = []
    · subst hp
      have h0 : EncryptForUser A ukd [] v = .error .emptyPlaintext := rfl
      rw [h0]
      exact ⟨except_error_ne (by decide), except_error_ne (by decide)⟩
    · rw [hmain A ukd v p hp]
      exact ⟨except_ok_ne_error _ _, except_ok_ne_error _ _⟩
  · intro A ukd v h
    unfold DecryptForUser DecryptString
    rcases hdec : hexDecode h with _ | ct
    · exact ⟨except_error_ne (by decide), except_error_ne (by decide)⟩
    · show Decrypt A ct (DeriveUserKey ukd v) ≠ _ ∧ Decrypt A ct (DeriveUserKey ukd v) ≠ _
      unfold Decrypt
      by_cases hc : ct.length = 0
      · rw [if_pos hc]
        exact ⟨except_error_ne (by decide), except_error_ne (by decide)⟩
      · rw [if_neg hc,
          if_neg (by simpa [List.length_eq_zero] using DeriveUserKey_ne_nil ukd v)]
        by_cases hmod : ct.length % 16 ≠ 0
        · rw [if_pos hmod]
          exact ⟨except_error_ne (by decide), except_error_ne (by decide)⟩
        · rw [if_neg hmod, if_pos (newCipherOK_aesKey _)]
          constructor
          · intro hh
            rcases pkcs7Unpad_error _ _ hh with h1 | h1 <;> cases h1
          · intro hh
            rcases pkcs7Unpad_error _ _ hh with h1 | h1 <;> cases h1

/-- Witness for C9 at a concrete identity, plaintext, and cipher
instance. -/
theorem c9_user_operations_total_witness :
    ∃ hexCt, EncryptForUser idAES ⟨[], []⟩ [5] (.uint 1) = .ok hexCt :=
  c9_user_operations_total.2.1 idAES ⟨[], []⟩ (.uint 1) [5] (by decide)

/-- C2: the hex-encoded ciphertext of `EncryptString` is byte-identical to
the spec-modelled database `HEX(AES_ENCRYPT(plaintext, key))`
(`mysql_aes_encrypt`), and `DecryptString` on a valid hex ciphertext of
block shape agrees with the spec-modelled `AES_DECRYPT`
(`mysql_aes_decrypt`). -/
theorem c2_mysql_interop :
    (∀ (A : AESImpl) (p k ct : List Nat), Encrypt A p k = .ok ct →
      ct = mysql_aes_encrypt A p k ∧
      EncryptString A p k = .ok (hexEncode (mysql_aes_encrypt A p k))) ∧
    (∀ (A : AESImpl) (h k ct : List Nat), hexDecode h = some ct → ct ≠ [] → k ≠ [] →
      ct.length % 16 = 0 → DecryptString A h k = mysql_aes_decrypt A ct k) := by
  constructor
  · intro A p k ct h
    by_cases hp : p.length = 0
    · unfold Encrypt at h
      rw [if_pos hp] at h
      exact Except.noConfusion h
    by_cases hk : k.length = 0
    · unfold Encrypt at h
      rw [if_neg hp, if_pos hk] at h
      exact Except.noConfusion h
    have hp' : p ≠ [] := fun hh => hp (by rw [hh]; rfl)
    have hk' : k ≠ [] := fun hh => hk (by rw [hh]; rfl)
    have hkey := Encrypt_eq A p k hp' hk'
    rw [hkey] at h
    have hmsql : mysql_aes_encrypt A p k = ecbMap (A.enc (aesKey k)) (pkcs7Pad p 16) := by
      unfold mysql_aes_encrypt
      rw [← aesKey_eq_fold_key]
      have hpad : mysql_pad p = pkcs7Pad p 16 := rfl
      rw [hpad, ← ecbMap_eq_mysql_ecb _ _ _ rfl (pkcs7Pad_length_mod p)]
    have hct : ct = ecbMap (A.enc (aesKey k)) (pkcs7Pad p 16) := by
      cases h
      rfl
    constructor
    · rw [hct, hmsql]
    · unfold EncryptString
      rw [hkey, hmsql]
  · intro A h k ct hdec hct hk hmod
    unfold DecryptString
    rw [hdec]
    show Decrypt A ct k = _
    rw [Decrypt_eq A ct k hct hk hmod]
    unfold mysql_aes_decrypt
    rw [← aesKey_eq_fold_key, ← ecbMap_eq_mysql_ecb _ _ _ rfl hmod,
      pkcs7Unpad_eq_mysql_unpad]

/-- Witness for C2 at a concrete plaintext, key, ciphertext and cipher
instance. -/
theorem c2_mysql_interop_witness :
    (104 :: List.replicate 15 15 = mysql_aes_encrypt idAES [104] [107] ∧
      EncryptString idAES [104] [107] = .ok (hexEncode (mysql_aes_encrypt idAES [104] [107]))) ∧
    DecryptString idAES (hexEncode (104 :: List.replicate 15 15)) [107] =
      mysql_aes_decrypt idAES (104 :: List.replicate 15 15) [107] :=
  ⟨c2_mysql_interop.1 idAES [104] [107] (104 :: List.replicate 15 15) (by decide),
   c2_mysql_interop.2 idAES (hexEncode (104 :: List.replicate 15 15)) [107]
     (104 :: List.replicate 15 15) (by decide) (by decide) (by decide) (by decide)⟩

/-- C3 counterexample: the claim as stated fails.  Two identity tokens can
be different, derive different key strings, and still fold (`aesKey`) to
the same 16-byte cipher key; decryption under the second identity then
succeeds and returns exactly the original plaintext, for every cipher
instance — exhibited here at a concrete pair of string identities. -/
theorem c3_isolation_counterexample :
    ¬ (∀ (A : AESImpl) (ukd : UserKeyDeriver) (p : List Nat) (a b : GoValue)
        (hexCt : List Nat),
        p ≠ [] → a ≠ b → DeriveUserKey ukd a ≠ DeriveUserKey ukd b →
        EncryptForUser A ukd p a = .ok hexCt →
        (∃ e, DecryptForUser A ukd hexCt b = .error e ∧ IsInvalidPadding e) ∨
        DecryptForUser A ukd hexCt b ≠ .ok p) := by
  intro hclaim
  have hdec : DecryptForUser idAES ⟨[], [115]⟩ (hexEncode (104 :: List.replicate 15 15))
      (.str (List.replicate 14 97 ++ [58, 115] ++ List.replicate 14 98 ++ [58, 115] ++
        List.replicate 14 98)) = .ok [104] := by decide
  have h := hclaim idAES ⟨[], [115]⟩ [104] (.str (List.replicate 14 97))
    (.str (List.replicate 14 97 ++ [58, 115] ++ List.replicate 14 98 ++ [58, 115] ++
      List.replicate 14 98))
    (hexEncode (104 :: List.replicate 15 15))
    (by decide) (by decide) (by decide) (by decide)
  rcases h with ⟨e, he, _⟩ | hne
  · rw [hdec] at he
    exact Except.noConfusion he
  · exact hne hdec

/-- C3 amended: distinct identities with distinct derived key strings do
not guarantee isolation, because the derived keys may fold to the same
16-byte cipher key (such pairs exist); whenever the two derived keys fold
to the same cipher key, `DecryptFor (EncryptFor p A) B` succeeds and
returns exactly `p`.  Isolation can only hold under the stronger guard
`aesKey (DeriveKey A) ≠ aesKey (DeriveKey B)`. -/
theorem c3_isolation_amended :
    (∃ (ukd : UserKeyDeriver) (a b : GoValue), a ≠ b ∧
      DeriveUserKey ukd a ≠ DeriveUserKey ukd b ∧
      aesKey (DeriveUserKey ukd a) = aesKey (DeriveUserKey ukd b)) ∧
    (∀ (A : AESImpl) (ukd : UserKeyDeriver) (p : List Nat) (a b : GoValue)
      (hexCt : List Nat),
      (∀ x ∈ p, x < 256) →
      aesKey (DeriveUserKey ukd a) = aesKey (DeriveUserKey ukd b) →
      EncryptForUser A ukd p a = .ok hexCt →
      DecryptForUser A ukd hexCt b = .ok p) := by
  constructor
  · exact ⟨⟨[], [115]⟩, .str (List.replicate 14 97),
      .str (List.replicate 14 97 ++ [58, 115] ++ List.replicate 14 98 ++ [58, 115] ++
        List.replicate 14 98), by decide, by decide, by decide⟩
  · intro A ukd p a b hexCt hbytes hfold henc
    by_cases hp0 : p.length = 0
    · exfalso
      unfold EncryptForUser EncryptString Encrypt at henc
      rw [if_pos hp0] at henc
      exact Except.noConfusion henc
    have hp' : p ≠ [] := fun hh => hp0 (by rw [hh]; rfl)
    have hka' := DeriveUserKey_ne_nil ukd a
    have hkb' := DeriveUserKey_ne_nil ukd b
    have hEnc := Encrypt_eq A p (DeriveUserKey ukd a) hp' hka'
    have hhex : hexCt =
        hexEncode (ecbMap (A.enc (aesKey (DeriveUserKey ukd a))) (pkcs7Pad p 16)) := by
      unfold EncryptForUser EncryptString at henc
      rw [hEnc] at henc
      cases henc
      rfl
    set ka := aesKey (DeriveUserKey ukd a) with hka
    have hkey : ka.length = 16 := aesKey_length _
    have hencl : ∀ bb : List Nat, bb.length = 16 → (A.enc ka bb).length = 16 :=
      fun bb hb => A.enc_length _ bb hkey hb
    have hpadmod := pkcs7Pad_length_mod p
    have hctlen : (ecbMap (A.enc ka) (pkcs7Pad p 16)).length = (pkcs7Pad p 16).length :=
      ecbMap_length _ hencl _ _ rfl hpadmod
    have hctbytes : ∀ x ∈ ecbMap (A.enc ka) (pkcs7Pad p 16), x < 256 :=
      ecbMap_bytes _ (fun bb hb hbb => A.enc_bytes _ bb hkey hb hbb) _ _ rfl hpadmod
        (pkcs7Pad_bytes p hbytes)
    have hctne : ecbMap (A.enc ka) (pkcs7Pad p 16) ≠ [] := by
      intro hh
      rw [hh] at hctlen
      have := pkcs7Pad_length_pos p
      simp at hctlen
      omega
    unfold DecryptForUser DecryptString
    rw [hhex, hexDecode_hexEncode _ hctbytes]
    show Decrypt A (ecbMap (A.enc ka) (pkcs7Pad p 16)) (DeriveUserKey ukd b) = .ok p
    rw [Decrypt_eq A _ _ hctne hkb' (by rw [hctlen]; exact hpadmod)]
    rw [← hfold]
    rw [ecbMap_ecbMap (A.enc ka) (A.dec ka) hencl
      (fun bb hb => A.dec_enc _ bb hkey hb) _ _ rfl hpadmod]
    exact pkcs7Unpad_pkcs7Pad p

/-- Witness for the amended C3 at the concrete fold-collision pair. -/
theorem c3_isolation_amended_witness :
    DecryptForUser idAES ⟨[], [115]⟩ (hexEncode (104 :: List.replicate 15 15))
      (.str (List.replicate 14 97 ++ [58, 115] ++ List.replicate 14 98 ++ [58, 115] ++
        List.replicate 14 98)) = .ok [104] :=
  c3_isolation_amended.2 idAES ⟨[], [115]⟩ [104] (.str (List.replicate 14 97))
    (.str (List.replicate 14 97 ++ [58, 115] ++ List.replicate 14 98 ++ [58, 115] ++
      List.replicate 14 98))
    (hexEncode (104 :: List.replicate 15 15)) (by decide) (by decide) (by decide)

/-- C10: `pkcs7Unpad` does not bound the pad length by the 16-byte block
size — it strips any `n` trailing bytes of value `n` with
`1 ≤ n ≤ len(data)`, even `n > 16`; a 32-byte buffer of bytes `0x20`
unpads to the empty sequence, so a successful `Decrypt` can return a
plaintext shorter than `len(ciphertext) - 16`, including the empty one. -/
theorem c10_unpad_unbounded :
    (∀ (data : List Nat) (n : Nat), data.length ≠ 0 → data.getD (data.length - 1) 0 = n →
      1 ≤ n → n ≤ data.length → (∀ x ∈ data.drop (data.length - n), x = n) →
      pkcs7Unpad data = .ok (data.take (data.length - n))) ∧
    pkcs7Unpad (List.replicate 32 32) = .ok [] ∧
    (∀ (A : AESImpl) (k : List Nat), k ≠ [] →
      Decrypt A (ecbMap (A.enc (aesKey k)) (List.replicate 32 32)) k = .ok []) := by
  refine ⟨pkcs7Unpad_ok, by decide, ?_⟩
  intro A k hk
  have hkey := aesKey_length k
  have hencl : ∀ b : List Nat, b.length = 16 → (A.enc (aesKey k) b).length = 16 :=
    fun b hb => A.enc_length _ b hkey hb
  have hlen : (ecbMap (A.enc (aesKey k)) (List.replicate 32 32)).length = 32 := by
    have := ecbMap_length _ hencl 32 (List.replicate 32 32) (by simp) (by omega)
    simpa using this
  have hne : ecbMap (A.enc (aesKey k)) (List.replicate 32 32) ≠ [] := by
    intro hh
    rw [hh] at hlen
    simp at hlen
  rw [Decrypt_eq A _ k hne hk (by rw [hlen])]
  rw [ecbMap_ecbMap _ _ hencl (fun b hb => A.dec_enc _ b hkey hb) 32 _ (by simp) (by omega)]
  decide

/-- Witness for C10 at a concrete key and cipher instance. -/
theorem c10_unpad_unbounded_witness :
    Decrypt idAES (ecbMap (idAES.enc (aesKey [107])) (List.replicate 32 32)) [107] = .ok [] :=
  c10_unpad_unbounded.2.2 idAES [107] (by decide)

end MysqlAes
